import Mathlib

/-!
Verification of the table-extraction core of `md_table_to_csv.py`.

The core operates on decoded text lines.  We embed a line as a `List Char`
(the Python code iterates over `text.splitlines()`; here the segmenter takes
the list of lines directly).  Python string operations are translated to
executable Lean functions on `List Char`:

* `str.strip` / `str.lstrip`  →  `strip` / `lstrip` (whitespace modelled as
  the ASCII whitespace characters, the ones relevant to every construct the
  source handles);
* `str.split(d)` for a one-character delimiter  →  `splitOnChar`;
* `str.replace(pat, rep)`  →  `replaceList` (leftmost, non-overlapping);
* the two anchored regular expressions `_BARE_SEPARATOR_RE` and
  `_BARE_TABLE_ROW_RE` → explicit character-scanning predicates
  `isBareSeparator` and `isBareTableRow` (see their doc comments for the
  derivation from the pattern).
-/

/-- ASCII whitespace, the characters Python's `str.strip` and the `\s`
regex class treat as whitespace in the ASCII range:
space, tab, newline, vertical tab, form feed, carriage return. -/
def isPySpace (c : Char) : Bool :=
  c = ' ' || c = '\t' || (9 ≤ c.toNat && c.toNat ≤ 13)

/-- `str.lstrip()`: drop leading whitespace. -/
def lstrip (l : List Char) : List Char := l.dropWhile isPySpace

/-- `str.rstrip()`: drop trailing whitespace. -/
def rstrip (l : List Char) : List Char := (l.reverse.dropWhile isPySpace).reverse

/-- `str.strip()`: drop leading and trailing whitespace. -/
def strip (l : List Char) : List Char := rstrip (lstrip l)

/-- The characters of a string literal, as a list. -/
def chars (s : String) : List Char := s.data

/-- `TABLE_LINE_STARTS` from the source: characters that mark the start of a
table line. -/
def TABLE_LINE_STARTS : List Char := ['|', '│', '┌', '├', '└']

/-- `BOX_BORDER_CHARS` from the source: box-drawing characters used in
borders and separators. -/
def BOX_BORDER_CHARS : List Char := ['┌', '┐', '└', '┘', '├', '┤', '┬', '┴', '┼', '─', '│']

/-- The loop of `_strip_blockquote`: while the line starts with `>`, drop the
`>` and left-strip.  Each iteration consumes at least one character, so the
length of the input is enough fuel; `stripBlockquote` always supplies it. -/
def stripQuoteAux : Nat → List Char → List Char
  | 0, l => l
  | _ + 1, [] => []
  | n + 1, c :: rest => if c = '>' then stripQuoteAux n (lstrip rest) else c :: rest

/-- The `>`-removal loop with its fuel supplied. -/
def stripQuoteRun (l : List Char) : List Char := stripQuoteAux l.length l

/-- `_strip_blockquote`: strip the line, then repeatedly remove a leading `>`
marker and any whitespace after it. -/
def stripBlockquote (line : List Char) : List Char :=
  stripQuoteRun (strip line)

/-- `str.split(d)` for a single-character delimiter `d` (Python semantics:
the empty string splits to `[""]`, delimiters at the ends produce empty
segments). -/
def splitOnChar (d : Char) : List Char → List (List Char)
  | [] => [[]]
  | c :: rest =>
    if c = d then [] :: splitOnChar d rest
    else
      match splitOnChar d rest with
      | [] => [[c]]
      | s :: ss => (c :: s) :: ss

/-- Characters allowed before the first pipe of `_BARE_SEPARATOR_RE`
(the class `[\s:-]`). -/
def bareSepHeadChar (c : Char) : Bool := isPySpace c || c = ':' || c = '-'

/-- Characters allowed after a pipe in `_BARE_SEPARATOR_RE`
(the class including the box-drawing dash `─`). -/
def bareSepTailChar (c : Char) : Bool := bareSepHeadChar c || c = '─'

/-- `_BARE_TABLE_ROW_RE` scan after the first character: walk to the first
`|` of the line remembering the previous character.  At the first `|`, the
whole pattern matches exactly when the previous character is not a
backslash (the lookbehind) and at least one character follows (the `.+`). -/
def bareRowScan (prev : Char) : List Char → Bool
  | [] => false
  | c :: rest =>
    if c = '|' then decide (prev ≠ '\\') && !rest.isEmpty
    else bareRowScan c rest

/-- `_BARE_SEPARATOR_RE.match`: the anchored pattern
`[\s:-]+(\|[\s:─-]+)+` matches the whole line exactly when splitting the
line on `|` gives a non-empty head segment of head-class characters
followed by at least one non-empty segment of tail-class characters
(neither character class contains `|`, so the segments between consecutive
pipes are exactly the repetitions of the pattern's groups). -/
def isBareSeparator (line : List Char) : Bool :=
  match splitOnChar '|' line with
  | [] => false
  | s0 :: rest =>
    !s0.isEmpty && s0.all bareSepHeadChar && !rest.isEmpty &&
      rest.all (fun s => !s.isEmpty && s.all bareSepTailChar)

/-- `_BARE_TABLE_ROW_RE.match`: the anchored pattern `[^|]+(?<!\\)\|.+`
matches the whole line exactly when the line does not start with `|` and the
scan to the first `|` succeeds: since `[^|]+` cannot cross a pipe, the `\|`
of the pattern is necessarily the first pipe of the line. -/
def isBareTableRow : List Char → Bool
  | [] => false
  | c :: rest => if c = '|' then false else bareRowScan c rest

/-- `_is_table_line`: a (blockquote-stripped) line is a table line when it is
non-empty and starts with a table-start character, or matches the bare
separator pattern, or matches the bare table row pattern. -/
def isTableLine (line : List Char) : Bool :=
  match line with
  | [] => false
  | c :: _ =>
    decide (c ∈ TABLE_LINE_STARTS) || isBareSeparator line || isBareTableRow line

/-- The loop of `find_tables`, with the accumulated current block as first
argument: table lines (after blockquote stripping) accumulate; a non-table
line closes the block, which is kept only when it has at least 2 lines; the
final block is closed at end of input under the same rule. -/
def findTablesAux : List (List Char) → List (List Char) → List (List (List Char))
  | acc, [] => if 2 ≤ acc.length then [acc] else []
  | acc, l :: rest =>
    let cleaned := stripBlockquote l
    if isTableLine cleaned then findTablesAux (acc ++ [cleaned]) rest
    else (if 2 ≤ acc.length then [acc] else []) ++ findTablesAux [] rest

/-- `find_tables`: group consecutive table lines of the document into
candidate blocks. -/
def findTables (lines : List (List Char)) : List (List (List Char)) :=
  findTablesAux [] lines

/-- A character that may appear in a separator/border row:
`|`, `-`, `:`, whitespace, or a box-drawing glyph (the regex class of
`_is_separator_row`). -/
def isSepChar (c : Char) : Bool :=
  c = '|' || c = '-' || c = ':' || isPySpace c || decide (c ∈ BOX_BORDER_CHARS)

/-- `_is_separator_row`: remove every separator character; the line is a
separator/border row exactly when nothing remains. -/
def isSeparatorRow (line : List Char) : Bool :=
  (line.filter (fun c => !isSepChar c)).isEmpty

/-- `str.replace(pat, rep)` (leftmost, non-overlapping), with fuel.  Each
step either consumes `pat.length ≥ 1` characters (on a match) or one
character, so the length of the subject is enough fuel; `replaceList`
always supplies it.  (`replaceList` is never used with an empty pattern.) -/
def replaceAux (pat rep : List Char) : Nat → List Char → List Char
  | 0, s => s
  | _ + 1, [] => []
  | n + 1, c :: rest =>
    if !pat.isEmpty && pat.isPrefixOf (c :: rest) then
      rep ++ replaceAux pat rep n (List.drop pat.length (c :: rest))
    else
      c :: replaceAux pat rep n rest

/-- `str.replace(pat, rep)`. -/
def replaceList (pat rep s : List Char) : List Char := replaceAux pat rep s.length s

/-- The sentinel of `_split_row`: `"\x00PIPE\x00"`. -/
def PLACEHOLDER : List Char := chars "\x00PIPE\x00"

/-- The escaped-pipe sequence `\|`. -/
def ESCAPED_PIPE : List Char := ['\\', '|']

/-- The splitting step of `_split_row`: if the line contains a box-drawing
bar, split on it directly; otherwise protect escaped pipes with the
sentinel, split on `|`, and restore the sentinel to a literal pipe in every
resulting cell. -/
def rawCells (line : List Char) : List (List Char) :=
  if '│' ∈ line then splitOnChar '│' line
  else
    (splitOnChar '|' (replaceList ESCAPED_PIPE PLACEHOLDER line)).map
      (replaceList PLACEHOLDER ['|'])

/-- The outer-delimiter trimming of `_split_row`: drop the first segment if
it strips to empty, then drop the last segment if it strips to empty. -/
def trimOuterCells (cells : List (List Char)) : List (List Char) :=
  let c1 :=
    if cells.isEmpty then cells
    else if (strip (cells.headD [])).isEmpty then cells.tail else cells
  if c1.isEmpty then c1
  else if (strip (c1.getLastD [])).isEmpty then c1.dropLast else c1

/-- `_split_row`: split on the detected delimiter, trim outer artifacts,
and strip every remaining cell. -/
def splitRow (line : List Char) : List (List Char) :=
  (trimOuterCells (rawCells line)).map strip

/-- `parse_table`: drop separator/border rows, split every other line. -/
def parseTable : List (List Char) → List (List (List Char))
  | [] => []
  | l :: rest =>
    if isSeparatorRow l then parseTable rest
    else splitRow l :: parseTable rest

/-! ### Exception-tracking model

To settle the claim that the core never raises, the functions are repeated
in an `Except` monad where every Python subscript (`line[0]`, `cells[0]`,
`cells[-1]`) is a checked access that raises `IndexError` when out of
bounds, exactly where the source indexes.  All other operations used by the
source (`strip`, `split`, `replace`, slicing, `startswith`, regex matching,
list `append`) are total in Python. -/

/-- Checked list indexing: `l[i]` raising `IndexError` out of bounds. -/
def getE (l : List α) (i : Nat) : Except String α :=
  match l.get? i with
  | some a => Except.ok a
  | none => Except.error "IndexError"

/-- Checked `l[-1]` raising `IndexError` on the empty list. -/
def getLastE (l : List α) : Except String α :=
  match l.getLast? with
  | some a => Except.ok a
  | none => Except.error "IndexError"

/-- `_is_table_line` with its `line[0]` subscript checked. -/
def isTableLineE (line : List Char) : Except String Bool := do
  if line.isEmpty then pure false
  else do
    let c0 ← getE line 0
    if c0 ∈ TABLE_LINE_STARTS then pure true
    else pure (isBareSeparator line || isBareTableRow line)

/-- The loop of `find_tables`, in the exception monad. -/
def findTablesAuxE :
    List (List Char) → List (List Char) → Except String (List (List (List Char)))
  | acc, [] => pure (if 2 ≤ acc.length then [acc] else [])
  | acc, l :: rest => do
    let cleaned := stripBlockquote l
    let b ← isTableLineE cleaned
    if b then findTablesAuxE (acc ++ [cleaned]) rest
    else do
      let r ← findTablesAuxE [] rest
      pure ((if 2 ≤ acc.length then [acc] else []) ++ r)

/-- `find_tables`, in the exception monad. -/
def findTablesE (lines : List (List Char)) : Except String (List (List (List Char))) :=
  findTablesAuxE [] lines

/-- The outer-delimiter trimming of `_split_row` with its `cells[0]` and
`cells[-1]` subscripts checked (each occurs under the source's `if cells`
guard). -/
def trimOuterCellsE (cells : List (List Char)) : Except String (List (List Char)) := do
  let c1 ←
    if cells.isEmpty then pure cells
    else do
      let c0 ← getE cells 0
      pure (if (strip c0).isEmpty then cells.tail else cells)
  if c1.isEmpty then pure c1
  else do
    let cl ← getLastE c1
    pure (if (strip cl).isEmpty then c1.dropLast else c1)

/-- `_split_row`, in the exception monad. -/
def splitRowE (line : List Char) : Except String (List (List Char)) := do
  let c2 ← trimOuterCellsE (rawCells line)
  pure (c2.map strip)

/-- `parse_table`, in the exception monad. -/
def parseTableE : List (List Char) → Except String (List (List (List Char)))
  | [] => pure []
  | l :: rest =>
    if isSeparatorRow l then parseTableE rest
    else do
      let r ← splitRowE l
      let rs ← parseTableE rest
      pure (r :: rs)

/-! ### Specification-side definitions

These definitions follow the specification's words rather than the source;
the theorems below compare them with the source translation. -/

/-- Modelled from the spec's words for outer-delimiter trimming: "if the
first resulting segment is empty or all-whitespace, drop it; if the last
resulting segment is empty or all-whitespace, drop it" (a segment is empty
or all-whitespace exactly when it strips to the empty string). -/
def specTrimOuter (segs : List (List Char)) : List (List Char) :=
  let s1 :=
    match segs with
    | [] => []
    | first :: rest => if strip first = [] then rest else first :: rest
  match s1.getLast? with
  | none => s1
  | some last => if strip last = [] then s1.dropLast else s1

/-- Modelled from the spec's words for the segmenter: the maximal runs of
consecutive table lines (after blockquote stripping), with no length
threshold applied. -/
def specRunsAux : List (List Char) → List (List Char) → List (List (List Char))
  | acc, [] => if acc.isEmpty then [] else [acc]
  | acc, l :: rest =>
    let cl := stripBlockquote l
    if isTableLine cl then specRunsAux (acc ++ [cl]) rest
    else (if acc.isEmpty then [] else [acc]) ++ specRunsAux [] rest

/-- The maximal runs of consecutive table lines of a document. -/
def specRuns (lines : List (List Char)) : List (List (List Char)) :=
  specRunsAux [] lines

/-- One serialized cell with its following delimiter: `" c |"`. -/
def chunkCell (c : List Char) : List Char := ' ' :: (c ++ [' ', '|'])

/-- A cell padded with one space on each side: `" c "`. -/
def padCell (c : List Char) : List Char := ' ' :: (c ++ [' '])

/-- Re-serialize a row to pipe notation with consistent spacing:
`| c1 | c2 |`. -/
def serializeRow (cells : List (List Char)) : List Char :=
  '|' :: (cells.map chunkCell).flatten

/-- The bare-row condition exactly as claim C1 words it: some unescaped pipe
at a position other than 0 (hence with non-empty content before it), with no
requirement of content after the pipe and no requirement that it be the
first pipe. -/
def claimUnescapedPipeB (line : List Char) : Bool :=
  (List.range line.length).any fun i =>
    decide (line.getD i ' ' = '|') && decide (1 ≤ i) &&
      decide (line.getD (i - 1) ' ' ≠ '\\')

/-- The positional reading of `_BARE_TABLE_ROW_RE`: the first pipe of the
line exists, is not at position 0, is not immediately preceded by a
backslash, and is followed by at least one character. -/
def firstUnescapedPipe (line : List Char) : Prop :=
  ∃ i, 1 ≤ i ∧ i + 1 < line.length ∧ line.getD i ' ' = '|' ∧
    (∀ j, j < i → line.getD j ' ' ≠ '|') ∧ line.getD (i - 1) ' ' ≠ '\\'

/-- A blockquote lead: a (possibly empty) sequence of `>` markers, each
followed by optional whitespace. -/
inductive IsQuoteLead : List Char → Prop
  | nil : IsQuoteLead []
  | cons (ws rest : List Char) : (∀ c ∈ ws, isPySpace c = true) → IsQuoteLead rest →
      IsQuoteLead ('>' :: (ws ++ rest))

/-! ### Whitespace-stripping toolbox -/

theorem lstrip_cons_of_space {c : Char} {l : List Char} (h : isPySpace c = true) :
    lstrip (c :: l) = lstrip l := by
  simp [lstrip, List.dropWhile_cons, h]

theorem lstrip_cons_of_nonspace {c : Char} {l : List Char} (h : isPySpace c = false) :
    lstrip (c :: l) = c :: l := by
  simp [lstrip, List.dropWhile_cons, h]

theorem lstrip_eq_nil_iff {l : List Char} : lstrip l = [] ↔ ∀ c ∈ l, isPySpace c = true :=
  List.dropWhile_eq_nil_iff

theorem rstrip_eq_nil_iff {l : List Char} : rstrip l = [] ↔ ∀ c ∈ l, isPySpace c = true := by
  unfold rstrip
  rw [List.reverse_eq_nil_iff, List.dropWhile_eq_nil_iff]
  constructor
  · intro h c hc
    exact h c (List.mem_reverse.mpr hc)
  · intro h c hc
    exact h c (List.mem_reverse.mp hc)

theorem lstrip_append_spaces {w l : List Char} (h : ∀ c ∈ w, isPySpace c = true) :
    lstrip (w ++ l) = lstrip l := by
  unfold lstrip
  rw [List.dropWhile_append, List.dropWhile_eq_nil_iff.mpr h]
  rfl

theorem rstrip_append_spaces {l w : List Char} (h : ∀ c ∈ w, isPySpace c = true) :
    rstrip (l ++ w) = rstrip l := by
  unfold rstrip
  rw [List.reverse_append, List.dropWhile_append,
    List.dropWhile_eq_nil_iff.mpr (fun c hc => h c (List.mem_reverse.mp hc))]
  rfl

theorem rstrip_concat_nonspace {l : List Char} {c : Char} (h : isPySpace c = false) :
    rstrip (l ++ [c]) = l ++ [c] := by
  unfold rstrip
  simp [List.reverse_append, List.dropWhile_cons, h]

theorem rstrip_cons (c : Char) (l : List Char) :
    rstrip (c :: l) =
      if (rstrip l).isEmpty then (if isPySpace c then [] else [c]) else c :: rstrip l := by
  unfold rstrip
  rw [show (c :: l).reverse = l.reverse ++ [c] by simp, List.dropWhile_append]
  have he : (l.reverse.dropWhile isPySpace).reverse.isEmpty = (l.reverse.dropWhile isPySpace).isEmpty := by
    rcases Classical.em (l.reverse.dropWhile isPySpace = []) with h | h
    · rw [h]; rfl
    · rw [List.isEmpty_eq_false.mpr h,
        List.isEmpty_eq_false.mpr (fun hr => h (List.reverse_eq_nil_iff.mp hr))]
  rw [he]
  by_cases hb : (l.reverse.dropWhile isPySpace).isEmpty
  · rw [if_pos hb, if_pos hb]
    by_cases hc : isPySpace c
    · simp [List.dropWhile_cons, hc]
    · simp [List.dropWhile_cons, hc]
  · rw [if_neg hb, if_neg hb]
    simp

theorem lstrip_idem (l : List Char) : lstrip (lstrip l) = lstrip l := by
  induction l with
  | nil => rfl
  | cons c t ih =>
    by_cases hc : isPySpace c
    · rw [lstrip_cons_of_space hc, ih]
    · rw [lstrip_cons_of_nonspace (Bool.eq_false_iff.mpr hc),
        lstrip_cons_of_nonspace (Bool.eq_false_iff.mpr hc)]

theorem rstrip_idem (l : List Char) : rstrip (rstrip l) = rstrip l := by
  unfold rstrip
  rw [List.reverse_reverse,
    show List.dropWhile isPySpace (List.dropWhile isPySpace l.reverse) =
      List.dropWhile isPySpace l.reverse from lstrip_idem l.reverse]

theorem lstrip_rstrip_comm (l : List Char) : lstrip (rstrip l) = rstrip (lstrip l) := by
  induction l with
  | nil => rfl
  | cons c t ih =>
    by_cases hc : isPySpace c
    · rw [lstrip_cons_of_space hc, rstrip_cons]
      by_cases he : (rstrip t).isEmpty
      · rw [if_pos he, if_pos hc]
        have ht : ∀ x ∈ t, isPySpace x = true := rstrip_eq_nil_iff.mp (List.isEmpty_iff.mp he)
        have : ∀ x ∈ lstrip t, isPySpace x = true :=
          fun x hx => ht x ((List.dropWhile_sublist isPySpace).subset hx)
        rw [show lstrip ([] : List Char) = [] from rfl, rstrip_eq_nil_iff.mpr this]
      · rw [if_neg he, lstrip_cons_of_space hc, ih]
    · have hc' : isPySpace c = false := Bool.eq_false_iff.mpr hc
      rw [lstrip_cons_of_nonspace hc', rstrip_cons]
      by_cases he : (rstrip t).isEmpty
      · rw [if_pos he, if_neg hc]
        exact lstrip_cons_of_nonspace hc'
      · rw [if_neg he]
        exact lstrip_cons_of_nonspace hc'

theorem strip_eq_lstrip_rstrip (l : List Char) : strip l = lstrip (rstrip l) :=
  (lstrip_rstrip_comm l).symm

theorem strip_append_spaces {w₁ w₂ l : List Char} (h₁ : ∀ c ∈ w₁, isPySpace c = true)
    (h₂ : ∀ c ∈ w₂, isPySpace c = true) : strip (w₁ ++ l ++ w₂) = strip l := by
  unfold strip
  rw [List.append_assoc, lstrip_append_spaces h₁, ← lstrip_rstrip_comm,
    rstrip_append_spaces h₂, lstrip_rstrip_comm]

theorem strip_eq_nil_iff {l : List Char} : strip l = [] ↔ ∀ c ∈ l, isPySpace c = true := by
  unfold strip
  rw [rstrip_eq_nil_iff]
  constructor
  · intro h c hc
    have hc' : c ∈ List.takeWhile isPySpace l ++ List.dropWhile isPySpace l := by
      rw [List.takeWhile_append_dropWhile isPySpace l]; exact hc
    rcases List.mem_append.mp hc' with h' | h'
    · exact List.mem_takeWhile_imp h'
    · exact h c h'
  · intro h c hc
    exact h c ((List.dropWhile_sublist isPySpace).subset hc)

theorem strip_idem (l : List Char) : strip (strip l) = strip l := by
  unfold strip
  rw [lstrip_rstrip_comm, lstrip_idem, rstrip_idem]

theorem lstrip_of_strip_eq_self {l : List Char} (h : strip l = l) : lstrip l = l := by
  conv_lhs => rw [← h]
  rw [strip_eq_lstrip_rstrip, lstrip_idem, ← strip_eq_lstrip_rstrip, h]

theorem rstrip_of_strip_eq_self {l : List Char} (h : strip l = l) : rstrip l = l := by
  conv_lhs => rw [← h]
  unfold strip
  rw [rstrip_idem]
  exact h

/-! ### Blockquote-stripping lemmas -/

theorem stripQuoteAux_congr :
    ∀ n m (l : List Char), l.length ≤ n → l.length ≤ m → stripQuoteAux n l = stripQuoteAux m l := by
  intro n
  induction n with
  | zero =>
    intro m l h1 _
    have : l = [] := List.length_eq_zero.mp (Nat.le_zero.mp h1)
    subst this
    cases m <;> rfl
  | succ n ih =>
    intro m l h1 h2
    cases l with
    | nil => cases m <;> rfl
    | cons c t =>
      cases m with
      | zero => exact absurd h2 (by simp)
      | succ m' =>
        simp only [stripQuoteAux]
        by_cases hc : c = '>'
        · rw [if_pos hc, if_pos hc]
          have hlen : (lstrip t).length ≤ t.length :=
            (List.dropWhile_sublist isPySpace).length_le
          have h1' : t.length ≤ n := by simpa using h1
          have h2' : t.length ≤ m' := by simpa using h2
          exact ih m' (lstrip t) (le_trans hlen h1') (le_trans hlen h2')
        · rw [if_neg hc, if_neg hc]

theorem stripQuoteRun_gt (t : List Char) : stripQuoteRun ('>' :: t) = stripQuoteRun (lstrip t) := by
  unfold stripQuoteRun
  show stripQuoteAux ('>' :: t).length ('>' :: t) = _
  simp only [List.length_cons, stripQuoteAux, if_pos rfl]
  exact stripQuoteAux_congr t.length (lstrip t).length (lstrip t)
    (List.dropWhile_sublist isPySpace).length_le le_rfl

theorem stripQuoteRun_cons {c : Char} (t : List Char) (h : c ≠ '>') :
    stripQuoteRun (c :: t) = c :: t := by
  unfold stripQuoteRun
  simp only [List.length_cons, stripQuoteAux]
  rw [if_neg h]

theorem stripQuoteRun_headNotGt : ∀ l : List Char, (stripQuoteRun l).head? ≠ some '>' := by
  have main : ∀ n (l : List Char), l.length ≤ n → (stripQuoteRun l).head? ≠ some '>' := by
    intro n
    induction n with
    | zero =>
      intro l h
      have : l = [] := List.length_eq_zero.mp (Nat.le_zero.mp h)
      subst this
      simp [stripQuoteRun, stripQuoteAux]
    | succ n ih =>
      intro l h
      cases l with
      | nil => simp [stripQuoteRun, stripQuoteAux]
      | cons c t =>
        by_cases hc : c = '>'
        · subst hc
          rw [stripQuoteRun_gt]
          have hlen : (lstrip t).length ≤ t.length :=
            (List.dropWhile_sublist isPySpace).length_le
          exact ih (lstrip t) (le_trans hlen (by simpa using h))
        · rw [stripQuoteRun_cons t hc]
          simp [hc]
  exact fun l => main l.length l le_rfl

theorem rstrip_of_cons_eq_self {c : Char} {t : List Char} (h : rstrip (c :: t) = c :: t) :
    rstrip t = t := by
  rw [rstrip_cons] at h
  by_cases he : (rstrip t).isEmpty
  · rw [if_pos he] at h
    have ht : rstrip t = [] := List.isEmpty_iff.mp he
    by_cases hc : isPySpace c
    · rw [if_pos hc] at h; exact absurd h (by simp)
    · rw [if_neg hc] at h
      have : t = [] := by
        have := congrArg List.length h
        simpa using this
      rw [this] at ht ⊢
      exact ht
  · rw [if_neg he] at h
    simp only [List.cons.injEq] at h
    exact h.2

theorem strip_stripQuoteRun :
    ∀ l : List Char, lstrip l = l → rstrip l = l → strip (stripQuoteRun l) = stripQuoteRun l := by
  have main : ∀ n (l : List Char), l.length ≤ n → lstrip l = l → rstrip l = l →
      strip (stripQuoteRun l) = stripQuoteRun l := by
    intro n
    induction n with
    | zero =>
      intro l h _ _
      have : l = [] := List.length_eq_zero.mp (Nat.le_zero.mp h)
      subst this
      rfl
    | succ n ih =>
      intro l h hl hr
      cases l with
      | nil => rfl
      | cons c t =>
        by_cases hc : c = '>'
        · subst hc
          rw [stripQuoteRun_gt]
          have hrt : rstrip t = t := rstrip_of_cons_eq_self hr
          refine ih (lstrip t) ?_ (lstrip_idem t) ?_
          · exact le_trans (List.dropWhile_sublist isPySpace).length_le (by simpa using h)
          · have hcomm := lstrip_rstrip_comm t
            rw [hrt] at hcomm
            exact hcomm.symm
        · rw [stripQuoteRun_cons t hc]
          show rstrip (lstrip (c :: t)) = c :: t
          rw [hl, hr]
  exact fun l => main l.length l le_rfl

theorem strip_stripBlockquote (line : List Char) :
    strip (stripBlockquote line) = stripBlockquote line :=
  strip_stripQuoteRun (strip line) (lstrip_of_strip_eq_self (strip_idem line))
    (rstrip_of_strip_eq_self (strip_idem line))

theorem stripBlockquote_headNotGt (line : List Char) :
    (stripBlockquote line).head? ≠ some '>' :=
  stripQuoteRun_headNotGt _

theorem stripBlockquote_wsPad {w₁ w₂ : List Char} (l : List Char)
    (h₁ : ∀ c ∈ w₁, isPySpace c = true) (h₂ : ∀ c ∈ w₂, isPySpace c = true) :
    stripBlockquote (w₁ ++ l ++ w₂) = stripBlockquote l := by
  unfold stripBlockquote
  rw [strip_append_spaces h₁ h₂]

theorem stripBlockquote_quoteLead {p : List Char} (hp : IsQuoteLead p) :
    ∀ l, stripBlockquote (p ++ l) = stripBlockquote l := by
  induction hp with
  | nil => intro l; rfl
  | cons ws rest hws _hrest ih =>
    intro l
    have hT : ('>' :: (ws ++ rest)) ++ l = '>' :: (ws ++ (rest ++ l)) := by simp
    rw [hT]
    have hgt : isPySpace '>' = false := by decide
    unfold stripBlockquote
    show stripQuoteRun (rstrip (lstrip ('>' :: (ws ++ (rest ++ l))))) = _
    rw [lstrip_cons_of_nonspace hgt, rstrip_cons]
    by_cases he : (rstrip (ws ++ (rest ++ l))).isEmpty
    · rw [if_pos he, if_neg (show ¬(isPySpace '>' = true) by simp [hgt])]
      have h1 : stripQuoteRun ['>'] = [] := by
        rw [stripQuoteRun_gt]
        rfl
      rw [h1]
      have hall : ∀ c ∈ ws ++ (rest ++ l), isPySpace c = true :=
        rstrip_eq_nil_iff.mp (List.isEmpty_iff.mp he)
      have hl : ∀ c ∈ l, isPySpace c = true := fun c hc => hall c (by simp [hc])
      rw [show strip l = [] from strip_eq_nil_iff.mpr hl]
      rfl
    · rw [if_neg he, stripQuoteRun_gt, lstrip_rstrip_comm, lstrip_append_spaces hws]
      show stripQuoteRun (strip (rest ++ l)) = _
      exact ih l

/-! ### Structural lemmas for `find_tables` and `parse_table` -/

theorem findTablesAux_congr :
    ∀ (ls₁ ls₂ : List (List Char)), ls₁.map stripBlockquote = ls₂.map stripBlockquote →
      ∀ acc, findTablesAux acc ls₁ = findTablesAux acc ls₂ := by
  intro ls₁
  induction ls₁ with
  | nil =>
    intro ls₂ h acc
    cases ls₂ with
    | nil => rfl
    | cons _ _ => simp at h
  | cons l t ih =>
    intro ls₂ h acc
    cases ls₂ with
    | nil => simp at h
    | cons l₂ t₂ =>
      simp only [List.map_cons, List.cons.injEq] at h
      obtain ⟨h1, h2⟩ := h
      simp only [findTablesAux]
      rw [h1]
      by_cases hb : isTableLine (stripBlockquote l₂)
      · rw [if_pos hb, if_pos hb]
        exact ih t₂ h2 (acc ++ [stripBlockquote l₂])
      · rw [if_neg hb, if_neg hb, ih t₂ h2 []]

theorem findTablesAux_blocks (P : List Char → Prop) (hP : ∀ line, P (stripBlockquote line)) :
    ∀ (ls : List (List Char)) acc, (∀ x ∈ acc, P x) →
      ∀ b ∈ findTablesAux acc ls, ∀ x ∈ b, P x := by
  intro ls
  induction ls with
  | nil =>
    intro acc hacc b hb x hx
    simp only [findTablesAux] at hb
    by_cases h2 : 2 ≤ acc.length
    · rw [if_pos h2] at hb
      simp only [List.mem_singleton] at hb
      subst hb
      exact hacc x hx
    · rw [if_neg h2] at hb
      simp at hb
  | cons l t ih =>
    intro acc hacc b hb x hx
    simp only [findTablesAux] at hb
    by_cases hbl : isTableLine (stripBlockquote l)
    · rw [if_pos hbl] at hb
      refine ih (acc ++ [stripBlockquote l]) ?_ b hb x hx
      intro y hy
      rcases List.mem_append.mp hy with h | h
      · exact hacc y h
      · simp only [List.mem_singleton] at h
        subst h
        exact hP l
    · rw [if_neg hbl] at hb
      rcases List.mem_append.mp hb with h | h
      · by_cases h2 : 2 ≤ acc.length
        · rw [if_pos h2] at h
          simp only [List.mem_singleton] at h
          subst h
          exact hacc x hx
        · rw [if_neg h2] at h
          simp at h
      · exact ih [] (by simp) b h x hx

theorem findTablesAux_allTable :
    ∀ (ls : List (List Char)) acc, (∀ l ∈ ls, stripBlockquote l = l ∧ isTableLine l = true) →
      findTablesAux acc ls = if 2 ≤ acc.length + ls.length then [acc ++ ls] else [] := by
  intro ls
  induction ls with
  | nil =>
    intro acc _
    simp [findTablesAux]
  | cons l t ih =>
    intro acc h
    obtain ⟨h1, h2⟩ := h l (by simp)
    simp only [findTablesAux, h1, h2, if_true]
    rw [ih (acc ++ [l]) (fun x hx => h x (by simp [hx]))]
    have e1 : (acc ++ [l]).length + t.length = acc.length + (l :: t).length := by
      simp only [List.length_append, List.length_cons, List.length_nil]
      omega
    have e2 : (acc ++ [l]) ++ t = acc ++ l :: t := by simp
    rw [e1, e2]

theorem findTablesAux_filter_runs :
    ∀ (ls : List (List Char)) acc,
      findTablesAux acc ls = (specRunsAux acc ls).filter (fun r => decide (2 ≤ r.length)) := by
  intro ls
  induction ls with
  | nil =>
    intro acc
    simp only [findTablesAux, specRunsAux]
    by_cases he : acc.isEmpty
    · have : acc = [] := List.isEmpty_iff.mp he
      subst this
      simp
    · rw [if_neg he]
      by_cases h2 : 2 ≤ acc.length
      · simp [h2]
      · simp [h2]
  | cons l t ih =>
    intro acc
    simp only [findTablesAux, specRunsAux]
    by_cases hb : isTableLine (stripBlockquote l)
    · rw [if_pos hb, if_pos hb]
      exact ih (acc ++ [stripBlockquote l])
    · rw [if_neg hb, if_neg hb, List.filter_append, ih []]
      congr 1
      by_cases he : acc.isEmpty
      · have : acc = [] := List.isEmpty_iff.mp he
        subst this
        simp
      · rw [if_neg he]
        by_cases h2 : 2 ≤ acc.length <;> simp [h2]

theorem parseTable_eq_filter :
    ∀ ls, parseTable ls = (ls.filter (fun l => !isSeparatorRow l)).map splitRow := by
  intro ls
  induction ls with
  | nil => rfl
  | cons l t ih =>
    simp only [parseTable]
    by_cases hs : isSeparatorRow l
    · rw [if_pos hs]
      simp [List.filter_cons, hs, ih]
    · rw [if_neg hs]
      simp [List.filter_cons, hs, ih]

/-! ### Splitting and replacement lemmas -/

theorem splitOnChar_ne_nil (d : Char) : ∀ l, splitOnChar d l ≠ [] := by
  intro l
  induction l with
  | nil => simp [splitOnChar]
  | cons c t ih =>
    simp only [splitOnChar]
    by_cases hc : c = d
    · simp [hc]
    · rw [if_neg hc]
      cases h : splitOnChar d t with
      | nil => simp
      | cons s ss => simp

theorem splitOnChar_no_delim {d : Char} :
    ∀ {u : List Char}, d ∉ u → splitOnChar d u = [u] := by
  intro u
  induction u with
  | nil => intro _; rfl
  | cons c t ih =>
    intro h
    have hc : ¬c = d := fun e => h (by simp [e])
    simp only [splitOnChar, if_neg hc]
    rw [ih (fun hd => h (List.mem_cons_of_mem _ hd))]

theorem splitOnChar_append {d : Char} :
    ∀ (u v : List Char), d ∉ u → splitOnChar d (u ++ d :: v) = u :: splitOnChar d v := by
  intro u
  induction u with
  | nil =>
    intro v _
    simp [splitOnChar]
  | cons c t ih =>
    intro v h
    have hc : ¬c = d := fun e => h (by simp [e])
    simp only [List.cons_append, splitOnChar, if_neg hc]
    rw [show List.append t (d :: v) = t ++ d :: v from rfl,
      ih v (fun hd => h (List.mem_cons_of_mem _ hd))]

theorem replaceAux_not_head {p₀ : Char} {pr rep : List Char} :
    ∀ n (s : List Char), p₀ ∉ s → replaceAux (p₀ :: pr) rep n s = s := by
  intro n
  induction n with
  | zero => intro s _; rfl
  | succ n ih =>
    intro s h
    cases s with
    | nil => rfl
    | cons c rest =>
      have hc : ¬p₀ = c := fun e => h (by simp [e])
      have hpre : List.isPrefixOf (p₀ :: pr) (c :: rest) = false := by
        simp only [List.isPrefixOf]
        rw [show (p₀ == c) = false from beq_eq_false_iff_ne.mpr hc]
        simp
      simp only [replaceAux]
      rw [if_neg (by simp [hpre]), ih rest (fun hm => h (List.mem_cons_of_mem _ hm))]

theorem replaceList_not_head {p₀ : Char} {pr rep s : List Char} (h : p₀ ∉ s) :
    replaceList (p₀ :: pr) rep s = s :=
  replaceAux_not_head s.length s h

/-! ### The exception model always succeeds and agrees with the pure model -/

theorem exceptBind_ok {α β : Type} (a : α) (f : α → Except String β) :
    (Except.ok a : Except String α) >>= f = f a := rfl

theorem getE_zero_of_ne_nil {α : Type} {l : List α} (d : α) (h : l ≠ []) :
    getE l 0 = Except.ok (l.headD d) := by
  cases l with
  | nil => exact absurd rfl h
  | cons c t => rfl

theorem getLastE_of_ne_nil {α : Type} {l : List α} (d : α) (h : l ≠ []) :
    getLastE l = Except.ok (l.getLastD d) := by
  cases hl : l.getLast? with
  | none => exact absurd (List.getLast?_eq_none_iff.mp hl) h
  | some a =>
    unfold getLastE
    rw [hl, List.getLastD_eq_getLast?, hl]
    rfl

theorem isTableLineE_ok (line : List Char) : isTableLineE line = Except.ok (isTableLine line) := by
  cases line with
  | nil => rfl
  | cons c t =>
    have step : isTableLineE (c :: t) =
        if c ∈ TABLE_LINE_STARTS then Except.ok true
        else Except.ok (isBareSeparator (c :: t) || isBareTableRow (c :: t)) := rfl
    rw [step]
    by_cases hmem : c ∈ TABLE_LINE_STARTS
    · rw [if_pos hmem]
      have hval : isTableLine (c :: t) = true := by
        simp [isTableLine, decide_eq_true hmem]
      rw [hval]
    · rw [if_neg hmem]
      have hval : isTableLine (c :: t) = (isBareSeparator (c :: t) || isBareTableRow (c :: t)) := by
        simp [isTableLine, decide_eq_false hmem]
      rw [hval]

theorem exceptMap_ok {α β : Type} (a : α) (f : α → β) :
    (f <$> (Except.ok a : Except String α)) = Except.ok (f a) := rfl

theorem exceptBind_pure {α β : Type} (a : α) (f : α → Except String β) :
    (pure a : Except String α) >>= f = f a := rfl

theorem exceptPure_eq_ok {α : Type} (a : α) : (pure a : Except String α) = Except.ok a := rfl

theorem trimOuterCellsE_ok (cells : List (List Char)) :
    trimOuterCellsE cells = Except.ok (trimOuterCells cells) := by
  cases cells with
  | nil => rfl
  | cons c t =>
    have hget : getE (c :: t) 0 = Except.ok c := rfl
    simp only [trimOuterCellsE, trimOuterCells, List.isEmpty_cons, Bool.false_eq_true, if_false,
      hget, exceptBind_ok, List.headD_cons, List.tail_cons]
    by_cases h2 : (strip c).isEmpty
    · simp only [h2, if_true]
      cases t with
      | nil => rfl
      | cons c' t' =>
        have hlast : getLastE (c' :: t') = Except.ok ((c' :: t').getLastD []) :=
          getLastE_of_ne_nil [] (by simp)
        simp only [List.isEmpty_cons, Bool.false_eq_true, if_false, hlast, exceptMap_ok,
          exceptBind_ok, exceptBind_pure, exceptPure_eq_ok, List.getLastD_eq_getLast?]
    · simp only [h2, Bool.false_eq_true, if_false]
      have hlast : getLastE (c :: t) = Except.ok ((c :: t).getLastD []) :=
        getLastE_of_ne_nil [] (by simp)
      simp only [List.isEmpty_cons, Bool.false_eq_true, if_false, hlast, exceptMap_ok,
        exceptBind_ok, exceptBind_pure, exceptPure_eq_ok, List.getLastD_eq_getLast?]

theorem splitRowE_ok (line : List Char) : splitRowE line = Except.ok (splitRow line) := by
  unfold splitRowE splitRow
  rw [trimOuterCellsE_ok, exceptBind_ok]
  rfl

theorem parseTableE_ok : ∀ ls, parseTableE ls = Except.ok (parseTable ls) := by
  intro ls
  induction ls with
  | nil => rfl
  | cons l t ih =>
    simp only [parseTableE, parseTable]
    by_cases hs : isSeparatorRow l
    · rw [if_pos hs, if_pos hs]
      exact ih
    · rw [if_neg hs, if_neg hs, splitRowE_ok l, exceptBind_ok, ih]
      rfl

theorem findTablesAuxE_ok : ∀ (ls : List (List Char)) acc,
    findTablesAuxE acc ls = Except.ok (findTablesAux acc ls) := by
  intro ls
  induction ls with
  | nil => intro acc; rfl
  | cons l t ih =>
    intro acc
    simp only [findTablesAuxE, findTablesAux, isTableLineE_ok, exceptBind_ok]
    by_cases hb : isTableLine (stripBlockquote l)
    · simp only [hb, if_true]
      exact ih (acc ++ [stripBlockquote l])
    · simp only [hb, Bool.false_eq_true, if_false, ih [], exceptBind_ok, exceptPure_eq_ok]

/-! ### Positional characterization of the bare-row pattern -/

theorem bareRowScan_iff :
    ∀ (l : List Char) (prev : Char),
      bareRowScan prev l = true ↔
        ∃ k, k + 1 < l.length ∧ l.getD k ' ' = '|' ∧ (∀ j, j < k → l.getD j ' ' ≠ '|') ∧
          (if k = 0 then prev else l.getD (k - 1) ' ') ≠ '\\' := by
  intro l
  induction l with
  | nil =>
    intro prev
    constructor
    · intro h
      simp [bareRowScan] at h
    · rintro ⟨k, hk, -⟩
      simp at hk
  | cons c rest ih =>
    intro prev
    by_cases hc : c = '|'
    · subst hc
      rw [show bareRowScan prev ('|' :: rest) = (decide (prev ≠ '\\') && !rest.isEmpty) from by
        simp [bareRowScan]]
      constructor
      · intro h
        rw [Bool.and_eq_true] at h
        obtain ⟨h1, h2⟩ := h
        have hp : prev ≠ '\\' := of_decide_eq_true h1
        have hr : rest ≠ [] := by
          intro he
          rw [he] at h2
          simp at h2
        refine ⟨0, ?_, rfl, ?_, ?_⟩
        · have := List.length_pos.mpr hr
          simpa using this
        · intro j hj
          omega
        · simpa using hp
      · rintro ⟨k, hlen, hpipe, hfirst, hprev⟩
        have hk0 : k = 0 := by
          by_contra hne
          have := hfirst 0 (Nat.pos_of_ne_zero hne)
          simp at this
        subst hk0
        have hprev' : prev ≠ '\\' := by simpa using hprev
        have hr : rest ≠ [] := by
          intro he
          subst he
          simp at hlen
        simp [hprev', List.isEmpty_eq_false.mpr hr]
    · rw [show bareRowScan prev (c :: rest) = bareRowScan c rest from by
        simp [bareRowScan, hc], ih c]
      constructor
      · rintro ⟨k, hlen, hpipe, hfirst, hprev⟩
        refine ⟨k + 1, by simpa using Nat.succ_lt_succ hlen, by simpa using hpipe, ?_, ?_⟩
        · intro j hj
          cases j with
          | zero => simpa using hc
          | succ j' =>
            have := hfirst j' (by omega)
            simpa using this
        · cases k with
          | zero => simpa using hprev
          | succ k' => simpa using hprev
      · rintro ⟨k, hlen, hpipe, hfirst, hprev⟩
        cases k with
        | zero =>
          rw [List.getD_cons_zero] at hpipe
          exact absurd hpipe hc
        | succ k' =>
          refine ⟨k', by simpa using hlen, by simpa using hpipe, ?_, ?_⟩
          · intro j hj
            have := hfirst (j + 1) (by omega)
            simpa using this
          · cases k' with
            | zero => simpa using hprev
            | succ k'' => simpa using hprev

theorem isBareTableRow_iff_firstPipe {c : Char} {rest : List Char} (hc : c ≠ '|') :
    isBareTableRow (c :: rest) = true ↔ firstUnescapedPipe (c :: rest) := by
  simp only [isBareTableRow, if_neg hc]
  rw [bareRowScan_iff rest c]
  unfold firstUnescapedPipe
  constructor
  · rintro ⟨k, hlen, hpipe, hfirst, hprev⟩
    refine ⟨k + 1, by omega, by simpa using Nat.succ_lt_succ hlen, by simpa using hpipe, ?_, ?_⟩
    · intro j hj
      cases j with
      | zero => simpa using hc
      | succ j' =>
        have := hfirst j' (by omega)
        simpa using this
    · cases k with
      | zero => simpa using hprev
      | succ k' => simpa using hprev
  · rintro ⟨i, hi1, hlen, hpipe, hfirst, hprev⟩
    cases i with
    | zero => omega
    | succ k =>
      refine ⟨k, by simpa using hlen, by simpa using hpipe, ?_, ?_⟩
      · intro j hj
        have := hfirst (j + 1) (by omega)
        simpa using this
      · cases k with
        | zero => simpa using hprev
        | succ k'' => simpa using hprev

/-! ### Re-serialization lemmas -/

theorem serializeRow_cons_shape (cells : List (List Char)) :
    serializeRow cells = '|' :: (cells.map chunkCell).flatten := rfl

theorem serializeRow_concat (cells : List (List Char)) :
    ∃ u, serializeRow cells = u ++ ['|'] := by
  rcases List.eq_nil_or_concat cells with h | ⟨L, b, h⟩
  · subst h
    exact ⟨[], rfl⟩
  · subst h
    refine ⟨'|' :: ((L.map chunkCell).flatten ++ padCell b), ?_⟩
    simp [serializeRow, chunkCell, padCell, List.flatten_append]

theorem strip_serializeRow (cells : List (List Char)) :
    strip (serializeRow cells) = serializeRow cells := by
  obtain ⟨u, hu⟩ := serializeRow_concat cells
  have h1 : lstrip (serializeRow cells) = serializeRow cells := by
    rw [serializeRow_cons_shape]
    exact lstrip_cons_of_nonspace (by decide)
  have h2 : rstrip (serializeRow cells) = serializeRow cells := by
    rw [hu]
    exact rstrip_concat_nonspace (by decide)
  show rstrip (lstrip (serializeRow cells)) = _
  rw [h1, h2]

theorem stripBlockquote_serializeRow (cells : List (List Char)) :
    stripBlockquote (serializeRow cells) = serializeRow cells := by
  unfold stripBlockquote
  rw [strip_serializeRow, serializeRow_cons_shape]
  exact stripQuoteRun_cons _ (by decide)

theorem isTableLine_serializeRow (cells : List (List Char)) :
    isTableLine (serializeRow cells) = true := by
  rw [serializeRow_cons_shape]
  have hd : decide ('|' ∈ TABLE_LINE_STARTS) = true := by decide
  simp [isTableLine, hd]

theorem mem_serializeRow {ch : Char} {cells : List (List Char)} (h : ch ∈ serializeRow cells) :
    ch = '|' ∨ ch = ' ' ∨ ∃ c ∈ cells, ch ∈ c := by
  rw [serializeRow_cons_shape] at h
  rcases List.mem_cons.mp h with h | h
  · exact Or.inl h
  · obtain ⟨l, hl, hcl⟩ := List.mem_flatten.mp h
    obtain ⟨c, hc, rfl⟩ := List.mem_map.mp hl
    rcases List.mem_cons.mp hcl with h' | h'
    · exact Or.inr (Or.inl h')
    · rcases List.mem_append.mp h' with h'' | h''
      · exact Or.inr (Or.inr ⟨c, hc, h''⟩)
      · rcases List.mem_cons.mp h'' with h3 | h3
        · exact Or.inr (Or.inl h3)
        · rcases List.mem_singleton.mp h3 with h4
          exact Or.inl h4

theorem cell_mem_serializeRow {ch : Char} {c : List Char} {cells : List (List Char)}
    (hc : c ∈ cells) (hch : ch ∈ c) : ch ∈ serializeRow cells := by
  rw [serializeRow_cons_shape]
  apply List.mem_cons_of_mem
  exact List.mem_flatten.mpr ⟨chunkCell c, List.mem_map_of_mem _ hc, by simp [chunkCell, hch]⟩

theorem splitOnChar_flatten_chunks {cells : List (List Char)} (h : ∀ c ∈ cells, '|' ∉ c) :
    splitOnChar '|' ((cells.map chunkCell).flatten) = cells.map padCell ++ [[]] := by
  induction cells with
  | nil => rfl
  | cons c cs ih =>
    have hflat : ((c :: cs).map chunkCell).flatten =
        padCell c ++ '|' :: (cs.map chunkCell).flatten := by
      simp [chunkCell, padCell]
    have hnot : '|' ∉ padCell c := by
      intro hm
      simp only [padCell, List.mem_cons, List.mem_append, List.mem_singleton] at hm
      rcases hm with h' | h' | h'
      · exact absurd h' (by decide)
      · exact h c (List.mem_cons_self c cs) h'
      · exact absurd h' (by decide)
    rw [hflat, splitOnChar_append (padCell c) _ hnot,
      ih (fun x hx => h x (List.mem_cons_of_mem _ hx))]
    rfl

theorem rawCells_serializeRow {cells : List (List Char)}
    (hpipe : ∀ c ∈ cells, '|' ∉ c) (hbox : ∀ c ∈ cells, '│' ∉ c)
    (hbs : ∀ c ∈ cells, '\\' ∉ c) (hnul : ∀ c ∈ cells, '\x00' ∉ c) :
    rawCells (serializeRow cells) = [] :: (cells.map padCell ++ [[]]) := by
  have hnb : '│' ∉ serializeRow cells := by
    intro hm
    rcases mem_serializeRow hm with h | h | ⟨c, hc, hch⟩
    · exact absurd h (by decide)
    · exact absurd h (by decide)
    · exact hbox c hc hch
  unfold rawCells
  rw [if_neg hnb]
  have hrep : replaceList ESCAPED_PIPE PLACEHOLDER (serializeRow cells) = serializeRow cells := by
    rw [show ESCAPED_PIPE = '\\' :: ['|'] from rfl]
    apply replaceList_not_head
    intro hm
    rcases mem_serializeRow hm with h | h | ⟨c, hc, hch⟩
    · exact absurd h (by decide)
    · exact absurd h (by decide)
    · exact hbs c hc hch
  rw [hrep, serializeRow_cons_shape,
    show splitOnChar '|' ('|' :: (cells.map chunkCell).flatten) =
      [] :: splitOnChar '|' ((cells.map chunkCell).flatten) from by simp [splitOnChar],
    splitOnChar_flatten_chunks hpipe]
  have hres : ∀ s ∈ ([] : List Char) :: (cells.map padCell ++ [[]]),
      replaceList PLACEHOLDER ['|'] s = s := by
    intro s hs
    rw [show PLACEHOLDER = '\x00' :: chars "PIPE\x00" from rfl]
    apply replaceList_not_head
    rcases List.mem_cons.mp hs with h | h
    · subst h
      simp
    · rcases List.mem_append.mp h with h' | h'
      · obtain ⟨c, hc, rfl⟩ := List.mem_map.mp h'
        intro hm
        simp only [padCell, List.mem_cons, List.mem_append, List.mem_singleton] at hm
        rcases hm with h'' | h'' | h''
        · exact absurd h'' (by decide)
        · exact hnul c hc h''
        · exact absurd h'' (by decide)
      · rcases List.mem_singleton.mp h' with rfl
        simp
  calc List.map (replaceList PLACEHOLDER ['|']) ([] :: (cells.map padCell ++ [[]]))
      = List.map id ([] :: (cells.map padCell ++ [[]])) := List.map_congr_left hres
    _ = [] :: (cells.map padCell ++ [[]]) := List.map_id _

theorem trimOuter_padded (X : List (List Char)) : trimOuterCells ([] :: (X ++ [[]])) = X := by
  unfold trimOuterCells
  simp only [List.isEmpty_cons, Bool.false_eq_true, if_false, List.headD_cons,
    show strip ([] : List Char) = [] from rfl, List.isEmpty_nil, if_true, List.tail_cons]
  rw [if_neg (by simp : ¬(X ++ [[]] : List (List Char)).isEmpty = true)]
  rw [List.getLastD_concat]
  rw [if_pos (by rfl : (strip ([] : List Char)).isEmpty = true), List.dropLast_concat]

theorem strip_padCell {c : List Char} (h : strip c = c) : strip (padCell c) = c := by
  have hp : padCell c = [' '] ++ c ++ [' '] := by simp [padCell]
  rw [hp, strip_append_spaces (by decide) (by decide), h]

theorem splitRow_serializeRow {cells : List (List Char)}
    (hpipe : ∀ c ∈ cells, '|' ∉ c) (hbox : ∀ c ∈ cells, '│' ∉ c)
    (hbs : ∀ c ∈ cells, '\\' ∉ c) (hnul : ∀ c ∈ cells, '\x00' ∉ c)
    (htrim : ∀ c ∈ cells, strip c = c) :
    splitRow (serializeRow cells) = cells := by
  unfold splitRow
  rw [rawCells_serializeRow hpipe hbox hbs hnul, trimOuter_padded]
  calc List.map strip (List.map padCell cells)
      = List.map (strip ∘ padCell) cells := by rw [List.map_map]
    _ = List.map id cells := List.map_congr_left (fun c hc => strip_padCell (htrim c hc))
    _ = cells := List.map_id _

theorem isSeparatorRow_serializeRow {cells : List (List Char)}
    (h : ∃ c ∈ cells, ∃ ch ∈ c, isSepChar ch = false) :
    isSeparatorRow (serializeRow cells) = false := by
  obtain ⟨c, hc, ch, hch, hsep⟩ := h
  unfold isSeparatorRow
  rw [List.isEmpty_eq_false]
  intro hnil
  have := List.filter_eq_nil_iff.mp hnil ch (cell_mem_serializeRow hc hch)
  simp [hsep] at this

theorem parseTable_serializedRows :
    ∀ rows : List (List (List Char)),
      (∀ r ∈ rows, (∀ c ∈ r, strip c = c ∧ '|' ∉ c ∧ '│' ∉ c ∧ '\\' ∉ c ∧ '\x00' ∉ c) ∧
        ∃ c ∈ r, ∃ ch ∈ c, isSepChar ch = false) →
      parseTable (rows.map serializeRow) = rows := by
  intro rows
  induction rows with
  | nil => intro _; rfl
  | cons r rs ih =>
    intro h
    obtain ⟨hcells, hdata⟩ := h r (by simp)
    simp only [List.map_cons, parseTable, isSeparatorRow_serializeRow hdata,
      Bool.false_eq_true, if_false]
    rw [splitRow_serializeRow (fun c hc => (hcells c hc).2.1) (fun c hc => (hcells c hc).2.2.1)
      (fun c hc => (hcells c hc).2.2.2.1) (fun c hc => (hcells c hc).2.2.2.2)
      (fun c hc => (hcells c hc).1),
      ih (fun x hx => h x (List.mem_cons_of_mem _ hx))]

theorem findTables_serializedRows {rows : List (List (List Char))} (h2 : 2 ≤ rows.length) :
    findTables (rows.map serializeRow) = [rows.map serializeRow] := by
  unfold findTables
  rw [findTablesAux_allTable (rows.map serializeRow) [] ?_]
  · rw [show ([] : List (List Char)).length + (rows.map serializeRow).length = rows.length from
      by simp]
    rw [if_pos h2]
    rfl
  · intro l hl
    obtain ⟨r, _, rfl⟩ := List.mem_map.mp hl
    exact ⟨stripBlockquote_serializeRow r, isTableLine_serializeRow r⟩

theorem trimOuter_eq_spec (segs : List (List Char)) : trimOuterCells segs = specTrimOuter segs := by
  unfold trimOuterCells specTrimOuter
  cases segs with
  | nil => rfl
  | cons first rest =>
    simp only [List.isEmpty_cons, Bool.false_eq_true, if_false, List.headD_cons, List.tail_cons]
    have hsame : (if (strip first).isEmpty then rest else first :: rest) =
        (if strip first = [] then rest else first :: rest) := by
      by_cases h : strip first = []
      · rw [if_pos (List.isEmpty_iff.mpr h), if_pos h]
      · rw [if_neg (fun he => h (List.isEmpty_iff.mp he)), if_neg h]
    rw [hsame]
    set s1 := if strip first = [] then rest else first :: rest with hs1
    cases h1 : s1.getLast? with
    | none =>
      have : s1 = [] := List.getLast?_eq_none_iff.mp h1
      rw [this]
      rfl
    | some last =>
      have hne : s1 ≠ [] := by
        intro he
        rw [he] at h1
        simp at h1
      rw [if_neg (show ¬s1.isEmpty = true by simp [List.isEmpty_eq_false.mpr hne])]
      have hld : s1.getLastD [] = last := by
        rw [List.getLastD_eq_getLast?, h1]
        rfl
      rw [hld]
      by_cases h : strip last = []
      · rw [if_pos (List.isEmpty_iff.mpr h)]
        show s1.dropLast = (if strip last = [] then s1.dropLast else s1)
        rw [if_pos h]
      · rw [if_neg (fun he => h (List.isEmpty_iff.mp he))]
        show s1 = (if strip last = [] then s1.dropLast else s1)
        rw [if_neg h]

theorem zipWith_quoteLead_map (ps : List (List Char)) :
    ∀ lines, ps.length = lines.length → (∀ p ∈ ps, IsQuoteLead p) →
      (List.zipWith (· ++ ·) ps lines).map stripBlockquote = lines.map stripBlockquote := by
  induction ps with
  | nil =>
    intro lines hlen _
    have : lines = [] := List.length_eq_zero.mp hlen.symm
    subst this
    rfl
  | cons p pt ih =>
    intro lines hlen hqp
    cases lines with
    | nil => simp at hlen
    | cons l lt =>
      simp only [List.zipWith_cons_cons, List.map_cons]
      rw [stripBlockquote_quoteLead (hqp p (by simp)) l,
        ih lt (by simpa using hlen) (fun q hq => hqp q (List.mem_cons_of_mem _ hq))]

/-! ### The claims -/

/-- C1, counterexample: the line `abc|` satisfies the claim's precondition
(non-empty, no table-start first character, not a bare separator) and the
claim's bare-row condition (`claimUnescapedPipeB`: an unescaped pipe at a
position other than 0 with non-empty content before it), yet
`_is_table_line` classifies it as a non-table line, because the regex
`_BARE_TABLE_ROW_RE` additionally requires at least one character after the
pipe. -/
theorem C1_cex :
    (chars "abc|" ≠ [] ∧ (chars "abc|").headD ' ' ∉ TABLE_LINE_STARTS ∧
      isBareSeparator (chars "abc|") = false) ∧
    claimUnescapedPipeB (chars "abc|") = true ∧
    isTableLine (chars "abc|") = false := by
  decide

/-- C1, amended: for every non-empty line that does not begin with a
table-start character and does not match the bare separator pattern,
`_is_table_line` classifies it as a table line exactly when the line's
first pipe exists at a position other than 0, is not immediately preceded
by a backslash, and is followed by at least one character
(`firstUnescapedPipe`). -/
theorem C1_amended (line : List Char) (h1 : line ≠ [])
    (h2 : line.headD ' ' ∉ TABLE_LINE_STARTS) (h3 : isBareSeparator line = false) :
    isTableLine line = true ↔ firstUnescapedPipe line := by
  cases line with
  | nil => exact absurd rfl h1
  | cons c rest =>
    rw [List.headD_cons] at h2
    have hc : c ≠ '|' := by
      intro e
      apply h2
      rw [e]
      decide
    have hmem : decide (c ∈ TABLE_LINE_STARTS) = false := decide_eq_false h2
    simp only [isTableLine, hmem, h3, Bool.false_or]
    exact isBareTableRow_iff_firstPipe hc

/-- C1, witness: the amended characterization instantiated at the bare data
row `Alice | 30`. -/
theorem C1_witness :
    isTableLine (chars "Alice | 30") = true ↔ firstUnescapedPipe (chars "Alice | 30") :=
  C1_amended (chars "Alice | 30") (by decide) (by decide) (by decide)

/-- C2: `_split_row` drops the first split segment when it is empty or
all-whitespace and the last one when it is empty or all-whitespace (each at
most once, per `specTrimOuter`), preserves interior empty cells, and trims
every remaining cell; in particular `| Alice | | NYC |` yields
`["Alice", "", "NYC"]` and `| Bob   | 25  |          |` yields
`["Bob", "25", ""]`. -/
theorem C2_outerTrim :
    (∀ line, splitRow line = (specTrimOuter (rawCells line)).map strip) ∧
    splitRow (chars "| Alice | | NYC |") = [chars "Alice", chars "", chars "NYC"] ∧
    splitRow (chars "| Bob   | 25  |          |") = [chars "Bob", chars "25", chars ""] := by
  refine ⟨fun line => ?_, by decide, by decide⟩
  unfold splitRow
  rw [trimOuter_eq_spec]

/-- C3: on a line without the box-drawing bar, `_split_row` replaces every
`\|` with the sentinel, splits on `|`, and restores the sentinel to a
literal pipe in every resulting cell (then trims as always); in particular
`| A \| B | 30 |` yields `["A | B", "30"]`. -/
theorem C3_escapeHandling :
    (∀ line, '│' ∉ line →
      splitRow line = (specTrimOuter ((splitOnChar '|'
        (replaceList ESCAPED_PIPE PLACEHOLDER line)).map
          (replaceList PLACEHOLDER ['|']))).map strip) ∧
    splitRow (chars "| A \\| B | 30 |") = [chars "A | B", chars "30"] := by
  refine ⟨fun line h => ?_, by decide⟩
  unfold splitRow rawCells
  rw [if_neg h, trimOuter_eq_spec]

/-- C3, witness: the escape pipeline instantiated at `| x |`. -/
theorem C3_witness :
    splitRow (chars "| x |") = (specTrimOuter ((splitOnChar '|'
      (replaceList ESCAPED_PIPE PLACEHOLDER (chars "| x |"))).map
        (replaceList PLACEHOLDER ['|']))).map strip :=
  C3_escapeHandling.1 (chars "| x |") (by decide)

/-- C4: a line is dropped by `parse_table` exactly when removing every
pipe/dash/colon/whitespace/box-glyph character leaves nothing
(`_is_separator_row`); `parse_table` is the separator filter followed by
`_split_row` in order (so dropped rows do not shift surviving rows), and a
block of only separator/border lines parses to zero rows. -/
theorem C4_separatorRows :
    (∀ line, isSeparatorRow line = true ↔ line.filter (fun c => !isSepChar c) = []) ∧
    (∀ lines, parseTable lines = (lines.filter (fun l => !isSeparatorRow l)).map splitRow) ∧
    (∀ lines, (∀ l ∈ lines, isSeparatorRow l = true) → parseTable lines = []) := by
  refine ⟨fun line => ?_, parseTable_eq_filter, fun lines h => ?_⟩
  · unfold isSeparatorRow
    exact List.isEmpty_iff
  · rw [parseTable_eq_filter,
      List.filter_eq_nil_iff.mpr (fun l hl => by simp [h l hl])]
    rfl

/-- C4, witness: a block of a pipe separator and a box-drawing separator
parses to zero rows. -/
theorem C4_witness : parseTable [chars "|---|", chars "├─┼─┤"] = [] :=
  C4_separatorRows.2.2 [chars "|---|", chars "├─┼─┤"] (by decide)

/-- C5: `find_tables` emits exactly the maximal runs of consecutive table
lines that have at least 2 lines (`specRuns` filtered by length); the
document `| a |` / blank / `| b |` yields zero blocks, and a 2-line run
ending at the end of the document is emitted. -/
theorem C5_blockEmission :
    (∀ lines, findTables lines = (specRuns lines).filter (fun r => decide (2 ≤ r.length))) ∧
    findTables [chars "| a |", chars "", chars "| b |"] = [] ∧
    findTables [chars "| a |", chars "| b |"] = [[chars "| a |", chars "| b |"]] :=
  ⟨fun lines => findTablesAux_filter_runs lines [], by decide, by decide⟩

/-- C6: `_split_row` splits on the box-drawing bar (without escape
handling) exactly when the line contains one, and otherwise on the ASCII
pipe with escape handling; the five-line box-drawing block parses to
`[["X","Y"],["1","2"]]` with both borders and the mid separator dropped. -/
theorem C6_delimiterSelection :
    (∀ line, '│' ∈ line → rawCells line = splitOnChar '│' line) ∧
    (∀ line, '│' ∉ line → rawCells line =
      (splitOnChar '|' (replaceList ESCAPED_PIPE PLACEHOLDER line)).map
        (replaceList PLACEHOLDER ['|'])) ∧
    parseTable [chars "┌─┬─┐", chars "│ X │ Y │", chars "├─┼─┤", chars "│ 1 │ 2 │",
      chars "└─┴─┘"] = [[chars "X", chars "Y"], [chars "1", chars "2"]] := by
  refine ⟨fun line h => ?_, fun line h => ?_, by decide⟩
  · unfold rawCells
    rw [if_pos h]
  · unfold rawCells
    rw [if_neg h]

/-- C6, witness: delimiter selection instantiated at a box-drawing row. -/
theorem C6_witness : rawCells (chars "│ X │") = splitOnChar '│' (chars "│ X │") :=
  C6_delimiterSelection.1 (chars "│ X │") (by decide)

/-- C7: prefixing every line of a document with a blockquote lead (one or
more `>` markers, each with optional following whitespace) leaves the
Candidate Blocks and the parsed Rows unchanged, and no line stored in any
block begins with `>`. -/
theorem C7_quoteInvariance (ps lines : List (List Char)) (hlen : ps.length = lines.length)
    (hqp : ∀ p ∈ ps, IsQuoteLead p) :
    findTables (List.zipWith (· ++ ·) ps lines) = findTables lines ∧
    (findTables (List.zipWith (· ++ ·) ps lines)).map parseTable =
      (findTables lines).map parseTable ∧
    ∀ b ∈ findTables lines, ∀ l ∈ b, l.head? ≠ some '>' := by
  have hobj : findTables (List.zipWith (· ++ ·) ps lines) = findTables lines :=
    findTablesAux_congr _ _ (zipWith_quoteLead_map ps lines hlen hqp) []
  refine ⟨hobj, by rw [hobj], ?_⟩
  intro b hb l hl
  exact findTablesAux_blocks (fun x => x.head? ≠ some '>') stripBlockquote_headNotGt
    lines [] (by simp) b hb l hl

/-- C7, witness: quote invariance instantiated at two `> `-prefixed table
lines. -/
theorem C7_witness :
    findTables (List.zipWith (· ++ ·) [['>', ' '], ['>', ' ']]
        [chars "| a |", chars "| b |"]) =
      findTables [chars "| a |", chars "| b |"] := by
  have hq : IsQuoteLead ['>', ' '] := IsQuoteLead.cons [' '] [] (by decide) IsQuoteLead.nil
  exact (C7_quoteInvariance [['>', ' '], ['>', ' ']] [chars "| a |", chars "| b |"] rfl
    (fun p hp => by
      rcases List.mem_cons.mp hp with h | h
      · rw [h]; exact hq
      · rw [List.mem_singleton.mp h]; exact hq)).1

/-- C8: the exception-tracking model of the core (every Python subscript
checked) always returns `ok` and agrees with the pure model: `find_tables`
and `parse_table` are total and never raise, returning (possibly empty)
lists. -/
theorem C8_totality :
    (∀ lines, findTablesE lines = Except.ok (findTables lines)) ∧
    (∀ block, parseTableE block = Except.ok (parseTable block)) :=
  ⟨fun lines => findTablesAuxE_ok lines [], parseTableE_ok⟩

/-- C9, counterexample: the single-row Table Result produced by the core
from the block `| a |` / `|---|` does not survive re-serialization: the
re-serialized document has one line, which `find_tables` discards (below
the 2-line minimum), so re-parsing yields no rows at all. -/
theorem C9_cex :
    findTables [chars "| a |", chars "|---|"] = [[chars "| a |", chars "|---|"]] ∧
    parseTable [chars "| a |", chars "|---|"] = [[chars "a"]] ∧
    (findTables ((parseTable [chars "| a |", chars "|---|"]).map serializeRow)).map parseTable ≠
      [parseTable [chars "| a |", chars "|---|"]] := by
  refine ⟨by decide, by decide, by decide⟩

/-- C9, amended: for every Table Result with at least 2 rows, whose cells
are whitespace-trimmed and contain no pipe, box-drawing bar, backslash or
NUL character, and each of whose rows has at least one cell with a
non-separator character, re-serializing each row as `| c1 | c2 |` and
re-running `find_tables` and `parse_table` yields exactly the same rows. -/
theorem C9_amended (rows : List (List (List Char))) (h2 : 2 ≤ rows.length)
    (hcells : ∀ r ∈ rows, ∀ c ∈ r, strip c = c ∧ '|' ∉ c ∧ '│' ∉ c ∧ '\\' ∉ c ∧ '\x00' ∉ c)
    (hdata : ∀ r ∈ rows, ∃ c ∈ r, ∃ ch ∈ c, isSepChar ch = false) :
    (findTables (rows.map serializeRow)).map parseTable = [rows] := by
  rw [findTables_serializedRows h2,
    show [rows.map serializeRow].map parseTable = [parseTable (rows.map serializeRow)] from rfl,
    parseTable_serializedRows rows (fun r hr => ⟨hcells r hr, hdata r hr⟩)]

/-- C9, witness: the amended round trip instantiated at the two-row result
`[["a"], ["b"]]`. -/
theorem C9_witness :
    (findTables ([[chars "a"], [chars "b"]].map serializeRow)).map parseTable =
      [[[chars "a"], [chars "b"]]] :=
  C9_amended [[chars "a"], [chars "b"]] (by decide) (by decide) (by decide)

/-- C10: every line is trimmed of leading and trailing whitespace before
classification, so `_strip_blockquote` (and hence classification and the
blocks of `find_tables`) is invariant under whitespace padding of any
line; the indented line `    | a |` is classified as a table line; and
every line stored in a block is whitespace-trimmed. -/
theorem C10_wsInvariance :
    (∀ (l w₁ w₂ : List Char), (∀ c ∈ w₁, isPySpace c = true) →
      (∀ c ∈ w₂, isPySpace c = true) →
      stripBlockquote (w₁ ++ l ++ w₂) = stripBlockquote l) ∧
    isTableLine (stripBlockquote (chars "    | a |")) = true ∧
    (∀ lines₁ lines₂ : List (List Char),
      List.Forall₂ (fun a b => ∃ w₁ w₂, (∀ c ∈ w₁, isPySpace c = true) ∧
        (∀ c ∈ w₂, isPySpace c = true) ∧ a = w₁ ++ b ++ w₂) lines₁ lines₂ →
      findTables lines₁ = findTables lines₂) ∧
    (∀ lines, ∀ b ∈ findTables lines, ∀ l ∈ b, strip l = l) := by
  refine ⟨fun l w₁ w₂ h₁ h₂ => stripBlockquote_wsPad l h₁ h₂, by decide, ?_, ?_⟩
  · intro lines₁ lines₂ hf
    apply findTablesAux_congr _ _ ?_ []
    induction hf with
    | nil => rfl
    | cons hr _ ih =>
      obtain ⟨w₁, w₂, hw₁, hw₂, heq⟩ := hr
      simp only [List.map_cons]
      rw [heq, stripBlockquote_wsPad _ hw₁ hw₂, ih]
  · intro lines b hb l hl
    exact findTablesAux_blocks (fun x => strip x = x) strip_stripBlockquote
      lines [] (by simp) b hb l hl

/-- C10, witness: whitespace-padding invariance instantiated at an indented
table line. -/
theorem C10_witness :
    stripBlockquote ([' ', ' '] ++ chars "| a |" ++ [' ']) = stripBlockquote (chars "| a |") :=
  C10_wsInvariance.1 (chars "| a |") [' ', ' '] [' '] (by decide) (by decide)

